import Mathlib

/-!
Verification of the oso polar-core negation inverter (`inverter.rs`), the
roles worked example and validator (`test_polar_roles.rs` and the spec's
roles compiler description), and the singleton-variable checker
(`warnings.rs`), against a shallow embedding of the source.
-/

namespace Polar

/-- Variable / rule-name symbols (terms.rs `Symbol`). -/
structure Symbol where
  name : String
deriving DecidableEq, Repr

/-- Operators appearing in constraint expressions (terms.rs `Operator`;
only the variants the inverter and the claims exercise). -/
inductive Operator where
  | and
  | or
  | not
  | unify
  | neq
  | eq
  | dot
  | lt
  | gt
deriving DecidableEq, Repr

/-- terms.rs `Term`/`Value`: the source's `Term` is a `Value` plus source
info. The embedding fuses the wrapper into each value constructor,
keeping only the source offset (spans are excluded from equality in the
source and only the offset is observable in the verified properties).
Dictionary and pattern fields keep only their value terms: string keys
play no role in any verified property. Synthesized terms (the source's
`term!` macro) carry offset 0. -/
inductive Term where
  | number (off : Nat) (n : Int)
  | str (off : Nat) (s : String)
  | boolean (off : Nat) (b : Bool)
  | variable (off : Nat) (s : Symbol)
  | restVariable (off : Nat) (s : Symbol)
  | patternInst (off : Nat) (tag : Symbol) (fields : List Term)
  | call (off : Nat) (name : Symbol) (args : List Term)
  | expression (off : Nat) (op : Operator) (args : List Term)
  | list (off : Nat) (elems : List Term)
  | dict (off : Nat) (elems : List Term)
  | externalInstance (off : Nat) (id : Nat)

/-- The source offset of a term (`Term::offset`). -/
def Term.offset : Term → Nat
  | .number o _ | .str o _ | .boolean o _ | .variable o _ | .restVariable o _
  | .patternInst o _ _ | .call o _ _ | .expression o _ _ | .list o _
  | .dict o _ | .externalInstance o _ => o

/-- terms.rs `Operation`: an operator with ordered argument terms. -/
structure Operation where
  operator : Operator
  args : List Term

/-- View a term as an expression (`Value::as_expression`). -/
def Term.asExpression : Term → Option Operation
  | .expression _ op args => some ⟨op, args⟩
  | _ => none

/-- Is this term an `Value::Expression`? -/
def Term.isExpression : Term → Bool
  | .expression _ _ _ => true
  | _ => false

mutual
/-- Structural equality of terms ignoring source offsets: the source's
`PartialEq for Term` compares values only (spans excluded). -/
def Term.beq : Term → Term → Bool
  | .number _ a, .number _ b => a == b
  | .str _ a, .str _ b => a == b
  | .boolean _ a, .boolean _ b => a == b
  | .variable _ a, .variable _ b => a == b
  | .restVariable _ a, .restVariable _ b => a == b
  | .patternInst _ t1 f1, .patternInst _ t2 f2 => t1 == t2 && Term.beqList f1 f2
  | .call _ n1 a1, .call _ n2 a2 => n1 == n2 && Term.beqList a1 a2
  | .expression _ o1 a1, .expression _ o2 a2 => o1 == o2 && Term.beqList a1 a2
  | .list _ e1, .list _ e2 => Term.beqList e1 e2
  | .dict _ e1, .dict _ e2 => Term.beqList e1 e2
  | .externalInstance _ i1, .externalInstance _ i2 => i1 == i2
  | _, _ => false

def Term.beqList : List Term → List Term → Bool
  | [], [] => true
  | t :: ts, u :: us => Term.beq t u && Term.beqList ts us
  | _, _ => false
end

mutual
theorem Term.beq_refl : ∀ t : Term, Term.beq t t = true
  | .number _ _ => by simp [Term.beq]
  | .str _ _ => by simp [Term.beq]
  | .boolean _ _ => by simp [Term.beq]
  | .variable _ _ => by simp [Term.beq]
  | .restVariable _ _ => by simp [Term.beq]
  | .patternInst _ _ f => by simp [Term.beq, Term.beqList_refl f]
  | .call _ _ a => by simp [Term.beq, Term.beqList_refl a]
  | .expression _ _ a => by simp [Term.beq, Term.beqList_refl a]
  | .list _ e => by simp [Term.beq, Term.beqList_refl e]
  | .dict _ e => by simp [Term.beq, Term.beqList_refl e]
  | .externalInstance _ _ => by simp [Term.beq]

theorem Term.beqList_refl : ∀ ts : List Term, Term.beqList ts ts = true
  | [] => rfl
  | t :: ts => by simp [Term.beqList, Term.beq_refl t, Term.beqList_refl ts]
end

/-- Build an expression term from an operation at a given offset. -/
def Term.ofOperation (off : Nat) (o : Operation) : Term :=
  .expression off o.operator o.args

/-- vm.rs `VariableState`: the state of a variable computed from the
binding stack. -/
inductive VariableState where
  | unbound
  | bound (t : Term)
  | partialE (e : Operation)
  | cycle (vars : List Symbol)

/-- vm.rs `Binding`: one entry of the binding stack. -/
abbrev Binding := Symbol × Term

/-- vm.rs `BindingStack`: the chronological list of bindings. -/
abbrev BindingStack := List Binding

/-- kb.rs `Bindings`: a map from variables to terms, embedded as an
association list (first match wins on lookup). -/
abbrev Bindings := List (Symbol × Term)

/-- Modelled from the spec (partial.rs is not part of the excerpt): a
Partial's constraint expression is a conjunction and its constraints are
its ordered argument terms. -/
def Operation.constraints (o : Operation) : List Term := o.args

/-- Modelled from the spec (partial.rs is not part of the excerpt):
replace the constraints of a constraint expression, keeping its operator. -/
def Operation.clone_with_constraints (o : Operation) (cs : List Term) : Operation :=
  ⟨o.operator, cs⟩

/-- Modelled from the spec (partial.rs is not part of the excerpt): keep
the first `csp` constraints — the prefix present before the negated
sub-query — verbatim, and invert only the constraints gained during the
sub-query, by negating their conjunction; nothing is added when nothing
was gained. -/
def Operation.inverted_constraints (o : Operation) (csp : Nat) : List Term :=
  let gained := o.constraints.drop csp
  if gained.isEmpty then o.constraints.take csp
  else o.constraints.take csp ++
    [Term.ofOperation 0 ⟨.not, [Term.ofOperation 0 ⟨.and, gained⟩]⟩]

/-- Modelled from the spec (partial.rs is not part of the excerpt): merge
two constraint expressions by conjunction — the second's constraints are
conjoined after the first's, never replacing them. -/
def Operation.merge_constraints (x y : Operation) : Operation :=
  ⟨x.operator, x.args ++ y.args⟩

/-- inverter.rs `PartialInverter`: the folder that inverts one binding,
carrying the variable's name and its state before the negation. -/
structure PartialInverter where
  this_var : Symbol
  old_state : VariableState

/-- inverter.rs `PartialInverter::invert_operation`: compute `csp` from
the old state (the constraint count at entry for a pre-existing Partial,
0 otherwise) and invert the constraints past that prefix. -/
def PartialInverter.invert_operation (pi : PartialInverter) (o : Operation) : Operation :=
  let csp := match pi.old_state with
    | .partialE e => e.constraints.length
    | _ => 0
  o.clone_with_constraints (o.inverted_constraints csp)

mutual
/-- inverter.rs `Folder for PartialInverter`, `fold_term`: an expression
gets its operation inverted; any other value is replaced by the
expression `And [this_var != folded value]`, keeping the term's source
info. -/
def PartialInverter.fold_term (pi : PartialInverter) : Term → Term
  | .expression off op args => Term.ofOperation off (pi.invert_operation ⟨op, args⟩)
  | t =>
      Term.ofOperation t.offset
        ⟨.and, [Term.ofOperation 0
          ⟨.neq, [.variable 0 pi.this_var, pi.fold_value t]⟩]⟩

/-- folder.rs `fold_value`, modelled from the spec ("folded through
subterms", folder.rs is not part of the excerpt): the generic fold maps
the (overridden) `fold_term` over the immediate subterms of a composite
value and leaves atoms unchanged; the rebuilt value carries no source
info of its own. -/
def PartialInverter.fold_value (pi : PartialInverter) : Term → Term
  | .number _ n => .number 0 n
  | .str _ s => .str 0 s
  | .boolean _ b => .boolean 0 b
  | .variable _ s => .variable 0 s
  | .restVariable _ s => .restVariable 0 s
  | .patternInst _ tag fields => .patternInst 0 tag (pi.fold_list fields)
  | .call _ n args => .call 0 n (pi.fold_list args)
  | .expression _ op args => .expression 0 op (pi.fold_list args)
  | .list _ es => .list 0 (pi.fold_list es)
  | .dict _ es => .dict 0 (pi.fold_list es)
  | .externalInstance _ i => .externalInstance 0 i

/-- folder.rs `fold_list`: map `fold_term` over a list of terms. -/
def PartialInverter.fold_list (pi : PartialInverter) : List Term → List Term
  | [] => []
  | t :: ts => pi.fold_term t :: pi.fold_list ts
end

/-- inverter.rs `invert_partials`: invert the bindings of one sub-query
result with respect to each variable's state at the inverter's entry
pointer (`vm.variable_state_at_point(var, bsp)`, here the function
`stateAt`). A variable Unbound or in a Cycle before negation is inverted
with old state Unbound; a Bound variable must be re-bound to an equal
value — the source's `assert_eq!(x, value, "inconsistent bindings")`, a
differing rebinding panics (`none`); a Partial variable is inverted with
its old partial state. -/
def invert_partials (stateAt : Symbol → VariableState) :
    BindingStack → Option BindingStack
  | [] => some []
  | (var, value) :: rest =>
    match stateAt var with
    | .unbound | .cycle _ =>
        (invert_partials stateAt rest).map
          (fun tl => (var, (PartialInverter.mk var .unbound).fold_term value) :: tl)
    | .bound x =>
        if Term.beq x value then invert_partials stateAt rest else none
    | .partialE e =>
        (invert_partials stateAt rest).map
          (fun tl => (var, (PartialInverter.mk var (.partialE e)).fold_term value) :: tl)

/-- inverter.rs `dedupe_bindings` worker: filter a reversed stack,
keeping the first (i.e. latest) occurrence of each variable. -/
def dedupeAux (seen : List Symbol) : BindingStack → BindingStack
  | [] => []
  | (var, value) :: rest =>
    if var ∈ seen then dedupeAux seen rest
    else (var, value) :: dedupeAux (var :: seen) rest

/-- inverter.rs `dedupe_bindings`: keep only the latest binding of each
variable; the result is in latest-first order, as produced by the
source's reversed filtering iterator. -/
def dedupe_bindings (bindings : BindingStack) : BindingStack :=
  dedupeAux [] bindings.reverse

/-- Replace the value of an existing key in a bindings map. -/
def updateB : Bindings → Symbol → Term → Bindings
  | [], s, t => [(s, t)]
  | (s', t') :: rest, s, t =>
    if s' = s then (s', t) :: rest else (s', t') :: updateB rest s t

/-- inverter.rs `reduce_constraints`, one entry: an occupied entry merges
two expression values by conjunction (keeping the new term's source
info), and panics (`none`) on any non-expression pair; a vacant entry
inserts the value and records the variable in order. -/
def reduceStep (acc : Bindings × List Symbol) (b : Symbol × Term) :
    Option (Bindings × List Symbol) :=
  match List.lookup b.1 acc.1 with
  | some existing =>
    match existing.asExpression, b.2.asExpression with
    | some x, some y =>
        some (updateB acc.1 b.1 (Term.ofOperation b.2.offset (x.merge_constraints y)), acc.2)
    | _, _ => none
  | none => some (acc.1 ++ [b], acc.2 ++ [b.1])

/-- inverter.rs `reduce_constraints`: fold every deduplicated result into
one bindings map, merging per variable by conjunction. -/
def reduce_constraints (bindings : List BindingStack) :
    Option (Bindings × List Symbol) :=
  bindings.foldlM (fun st bs => (dedupe_bindings bs).foldlM reduceStep st) ([], [])

/-- events.rs `QueryEvent`, restricted to what the inverter
distinguishes: `Done{result}`, `Result`, and every other event (external
calls, external questions, subclass/isa checks ...), kept opaque. -/
inductive QueryEvent where
  | done (result : Bool)
  | other (id : Nat)

/-- One event yielded by the negated sub-run. Modelled from the spec
(vm.rs is not part of the excerpt): the sub-VM is reduced to the sequence
of events it will yield; each `Result` carries the bindings the sub-run
accumulated above the entry pointer, which `Inverter::run` drains
(`self.vm.bindings.drain(self.bsp..)`). -/
inductive SubEvent where
  | result (drained : BindingStack)
  | done (result : Bool)
  | other (id : Nat)

/-- Modelled from the spec (vm.rs is not part of the excerpt): the nested
sub-VM, reduced to its observable protocol — the events it will yield and
the log of host answers it has received. -/
structure SubVM where
  events : List SubEvent
  callResults : List (Nat × Option Term)
  questionResults : List (Nat × Bool)

/-- Modelled from the spec: the sub-VM records a host-supplied external
call result under its call id. -/
def SubVM.external_call_result (vm : SubVM) (callId : Nat) (t : Option Term) : SubVM :=
  { vm with callResults := vm.callResults ++ [(callId, t)] }

/-- Modelled from the spec: the sub-VM records a host-supplied boolean
answer under its call id. -/
def SubVM.external_question_result (vm : SubVM) (callId : Nat) (answer : Bool) : SubVM :=
  { vm with questionResults := vm.questionResults ++ [(callId, answer)] }

/-- inverter.rs `Inverter`: the sub-VM, the variable-state view of the
parent VM at the entry pointer `bsp` (`vm.variable_state_at_point(·,
bsp)`), the collected results, and the parent's shared binding stack. -/
structure Inverter where
  vm : SubVM
  stateAt : Symbol → VariableState
  results : List BindingStack
  shared : BindingStack

/-- inverter.rs `Inverter::run`, `Done` arm with at least one collected
result: invert every result, reduce and merge the constraints, check the
source's key assertion (`assert_eq!(reduced_keys, ordered_keys)`), and
produce the bindings appended to the parent's shared stack, in
`ordered_vars` order (`reduced[&var]` for each). `none` models a
panicking assertion. -/
def doneBindings (results : List BindingStack) (stateAt : Symbol → VariableState) :
    Option BindingStack := do
  let inverted ← results.mapM (invert_partials stateAt)
  let (reduced, vars) ← reduce_constraints inverted
  if (reduced.map Prod.fst).all (· ∈ vars) && vars.all (· ∈ reduced.map Prod.fst) then
    vars.mapM (fun v => (List.lookup v reduced).map (fun t => (v, t)))
  else none

/-- inverter.rs `Inverter::run`, the event loop: collect each `Result`'s
drained bindings; on `Done` return `Done{result}` — `result` is true iff
no results were collected (classic negation-as-failure) or the merged
inverted bindings are nonempty (each binding returned sets `result =
true`), extending the parent's shared stack with them; return any other
event unchanged. Returns the event together with the remaining sub-VM
events, the collected results and the shared stack; `none` models a
panicking internal assertion. -/
def runLoop (stateAt : Symbol → VariableState) :
    List SubEvent → List BindingStack → BindingStack →
    Option (QueryEvent × List SubEvent × List BindingStack × BindingStack)
  | [], _, _ => none
  | .done _ :: rest, results, shared =>
    if results.isEmpty then some (.done true, rest, [], shared)
    else
      match doneBindings results stateAt with
      | none => none
      | some newBindings =>
          some (.done (!newBindings.isEmpty), rest, [], shared ++ newBindings)
  | .result bs :: rest, results, shared => runLoop stateAt rest (results ++ [bs]) shared
  | .other i :: rest, results, shared => some (.other i, rest, results, shared)

/-- inverter.rs `Runnable for Inverter`, `run`: the loop above, updating
the inverter's state. -/
def Inverter.run (inv : Inverter) : Option (QueryEvent × Inverter) :=
  (runLoop inv.stateAt inv.vm.events inv.results inv.shared).map
    (fun r => (r.1, { inv with vm := { inv.vm with events := r.2.1 },
                               results := r.2.2.1, shared := r.2.2.2 }))

/-- inverter.rs `Inverter::external_call_result`: forward the host's
answer to the sub-VM unchanged. -/
def Inverter.external_call_result (inv : Inverter) (callId : Nat) (t : Option Term) : Inverter :=
  { inv with vm := inv.vm.external_call_result callId t }

/-- inverter.rs `Inverter::external_question_result`: forward the host's
answer to the sub-VM unchanged. -/
def Inverter.external_question_result (inv : Inverter) (callId : Nat) (answer : Bool) : Inverter :=
  { inv with vm := inv.vm.external_question_result callId answer }

/-- The host loop around `Inverter::run`: re-invoke `run` after each
passed-through event until `Done`, collecting the passed-through events;
returns them with the final `Done` result and shared stack. -/
def drive (stateAt : Symbol → VariableState) :
    List SubEvent → List BindingStack → BindingStack →
    Option (List Nat × Bool × BindingStack)
  | [], _, _ => none
  | .done _ :: _, results, shared =>
    if results.isEmpty then some ([], true, shared)
    else
      (doneBindings results stateAt).map
        (fun nb => ([], !nb.isEmpty, shared ++ nb))
  | .result bs :: rest, results, shared => drive stateAt rest (results ++ [bs]) shared
  | .other i :: rest, results, shared =>
      (drive stateAt rest results shared).map
        (fun r => (i :: r.1, r.2.1, r.2.2))

/-! ## Helper lemmas -/

/-- The pass-through ids of a list of sub-events. -/
def otherIds (evs : List SubEvent) : List Nat :=
  evs.filterMap (fun e => match e with | .other i => some i | _ => none)

theorem drive_runLoop (stateAt : Symbol → VariableState) :
    ∀ (evs : List SubEvent) (res : List BindingStack) (sh : BindingStack),
    drive stateAt evs res sh =
      match runLoop stateAt evs res sh with
      | none => none
      | some (.done r, _, _, sh') => some ([], r, sh')
      | some (.other i, evs', res', sh') =>
          (drive stateAt evs' res' sh').map (fun x => (i :: x.1, x.2))
  | [], _, _ => by simp [drive, runLoop]
  | .done r :: rest, res, sh => by
      simp only [drive, runLoop]
      by_cases h : res.isEmpty
      · simp [h]
      · simp only [h, if_false]
        cases doneBindings res stateAt <;> simp [Option.map]
  | .result bs :: rest, res, sh => by
      simp only [drive, runLoop]
      exact drive_runLoop stateAt rest (res ++ [bs]) sh
  | .other i :: rest, res, sh => by
      simp [drive, runLoop]

theorem drive_prepends_other (stateAt : Symbol → VariableState)
    (i : Nat) (rest : List SubEvent) (res : List BindingStack) (sh : BindingStack) :
    drive stateAt (.other i :: rest) res sh =
      (drive stateAt rest res sh).map (fun x => (i :: x.1, x.2)) := by
  simp [drive]

/-! ## C1 -/

/-- C1: a negated sub-query that yields zero `Result` events before `Done`
(only pass-through events) makes the inverter succeed: the driven run
ends in `Done` with `result = true` and the parent's shared binding stack
is unchanged; equivalently, the final `run` invocation that sees `Done`
with no collected results returns `Done{result: true}` and appends
nothing. -/
theorem inverter_zero_results_succeeds
    (stateAt : Symbol → VariableState) (pre post : List SubEvent) (r : Bool)
    (shared : BindingStack)
    (hpre : ∀ e ∈ pre, ∃ i, e = SubEvent.other i) :
    drive stateAt (pre ++ SubEvent.done r :: post) [] shared
      = some (otherIds pre, true, shared)
    ∧ runLoop stateAt (SubEvent.done r :: post) [] shared
      = some (.done true, post, [], shared) := by
  constructor
  · induction pre with
    | nil => simp [drive, otherIds]
    | cons e pre ih =>
        obtain ⟨i, rfl⟩ := hpre e (List.mem_cons_self e pre)
        have ih' := ih (fun e he => hpre e (List.mem_cons_of_mem _ he))
        simp [drive, otherIds, ih']
  · simp [runLoop]

/-- Witness for C1 at a concrete sub-run: one external event, then Done. -/
theorem inverter_zero_results_succeeds_witness :
    (∀ e ∈ [SubEvent.other 7], ∃ i, e = SubEvent.other i)
    ∧ drive (fun _ => .unbound) [SubEvent.other 7, SubEvent.done false] []
        [(⟨"x"⟩, Term.number 0 1)]
      = some ([7], true, [(⟨"x"⟩, Term.number 0 1)]) :=
  ⟨by simp, (inverter_zero_results_succeeds (fun _ => .unbound) [SubEvent.other 7] []
      false [(⟨"x"⟩, Term.number 0 1)] (by simp)).1⟩

/-! ## C3 -/

theorem asExpression_eq_none (t : Term) (h : t.isExpression = false) :
    t.asExpression = none := by
  cases t <;> simp_all [Term.isExpression, Term.asExpression]

/-- C3: across two disjuncts binding the same variable, expression
constraints are merged by conjunction — the second's constraints are
conjoined after the first's, never replacing them; a concrete
(non-expression) rebinding to an inconsistent value makes
`reduce_constraints` panic (`none`), and such a failure surfaced at
`Done` aborts `run` fatally (`none`) instead of yielding an ordinary
`Done{result: false}`. -/
theorem inverter_merges_disjuncts_and_rejects_rebinding
    (v : Symbol) (t1 t2 : Term) :
    (∀ x y, t1.asExpression = some x → t2.asExpression = some y →
      reduce_constraints [[(v, t1)], [(v, t2)]]
        = some ([(v, Term.ofOperation t2.offset ⟨x.operator, x.args ++ y.args⟩)], [v]))
    ∧ (t1.isExpression = false → Term.beq t1 t2 = false →
        reduce_constraints [[(v, t1)], [(v, t2)]] = none)
    ∧ (∀ (stateAt : Symbol → VariableState) (rest : List SubEvent) (r : Bool)
        (results : List BindingStack) (shared : BindingStack),
        results ≠ [] → doneBindings results stateAt = none →
        runLoop stateAt (SubEvent.done r :: rest) results shared = none) := by
  refine ⟨?_, ?_, ?_⟩
  · intro x y hx hy
    simp [reduce_constraints, dedupe_bindings, dedupeAux, reduceStep, List.foldlM,
      List.lookup, hx, hy, Operation.merge_constraints, updateB]
  · intro h1 _
    simp [reduce_constraints, dedupe_bindings, dedupeAux, reduceStep, List.foldlM,
      List.lookup, asExpression_eq_none t1 h1]
  · intro stateAt rest r results shared hres hdb
    simp [runLoop, List.isEmpty_iff, hres, hdb]

/-- Witness for C3 at concrete terms: the same variable bound to the
numbers 1 and 2 across two disjuncts is a fatal `none`. -/
theorem inverter_merges_disjuncts_witness :
    ((Term.number 0 1).isExpression = false
      ∧ Term.beq (Term.number 0 1) (Term.number 0 2) = false)
    ∧ reduce_constraints [[(⟨"x"⟩, Term.number 0 1)], [(⟨"x"⟩, Term.number 0 2)]] = none :=
  ⟨⟨rfl, by simp [Term.beq]⟩,
    (inverter_merges_disjuncts_and_rejects_rebinding ⟨"x"⟩ (Term.number 0 1)
      (Term.number 0 2)).2.1 rfl (by simp [Term.beq])⟩

/-! ## C4 -/

/-- C4: with at least one collected result, the `Done` arm of `run`
succeeds exactly when the merged inverted bindings are nonempty; the
merged bindings are appended to the parent's shared stack, whose
pre-negation prefix is preserved; and the only `Done{result: true}` with
nothing appended is the zero-result case, which still succeeds. -/
theorem inverter_done_splices_merged_bindings
    (stateAt : Symbol → VariableState) (rest : List SubEvent) (r : Bool)
    (results : List BindingStack) (shared nb : BindingStack)
    (hres : results ≠ []) (hdb : doneBindings results stateAt = some nb) :
    runLoop stateAt (SubEvent.done r :: rest) results shared
      = some (.done (!nb.isEmpty), rest, [], shared ++ nb)
    ∧ ((!nb.isEmpty) = true ↔ nb ≠ [])
    ∧ (shared ++ nb).take shared.length = shared
    ∧ runLoop stateAt (SubEvent.done r :: rest) [] shared
      = some (.done true, rest, [], shared) := by
  refine ⟨?_, by cases nb <;> simp, by simp, by simp [runLoop]⟩
  simp [runLoop, List.isEmpty_iff, hres, hdb]

/-- Witness for C4: one result that re-derives a fresh binding for `x`
appends one inverted binding and succeeds. -/
theorem inverter_done_splices_witness :
    ([[(⟨"x"⟩, Term.number 0 1)]] ≠ ([] : List BindingStack)
      ∧ doneBindings [[(⟨"x"⟩, Term.number 0 1)]] (fun _ => .unbound)
          = some [(⟨"x"⟩, (PartialInverter.mk ⟨"x"⟩ .unbound).fold_term (Term.number 0 1))])
    ∧ runLoop (fun _ => .unbound) [SubEvent.done false] [[(⟨"x"⟩, Term.number 0 1)]] []
      = some (.done true, [], [],
          [(⟨"x"⟩, (PartialInverter.mk ⟨"x"⟩ .unbound).fold_term (Term.number 0 1))]) := by
  have hdb : doneBindings [[(⟨"x"⟩, Term.number 0 1)]] (fun _ => .unbound)
      = some [(⟨"x"⟩, (PartialInverter.mk ⟨"x"⟩ .unbound).fold_term (Term.number 0 1))] := by
    simp [doneBindings, invert_partials, reduce_constraints, dedupe_bindings, dedupeAux,
      reduceStep, List.foldlM, List.lookup, List.mapM, List.mapM.loop, Option.bind]
  refine ⟨⟨by simp, hdb⟩, ?_⟩
  have h := (inverter_done_splices_merged_bindings (fun _ => .unbound) [] false
    [[(⟨"x"⟩, Term.number 0 1)]] []
    [(⟨"x"⟩, (PartialInverter.mk ⟨"x"⟩ .unbound).fold_term (Term.number 0 1))]
    (by simp) hdb).1
  simpa using h

/-! ## C9 -/

/-- C9: any sub-run event other than `Result` and `Done` — reached after
draining any number of `Result`s — is returned to the host unchanged,
with the collected results extended by exactly the drained stacks and the
shared stack untouched; and host answers are forwarded to the sub-VM
verbatim. -/
theorem inverter_passes_events_through
    (stateAt : Symbol → VariableState) (rs : List BindingStack) (i : Nat)
    (rest : List SubEvent) (results : List BindingStack) (shared : BindingStack)
    (inv : Inverter) (callId : Nat) (t : Option Term) (answer : Bool) :
    runLoop stateAt (rs.map SubEvent.result ++ SubEvent.other i :: rest) results shared
      = some (.other i, rest, results ++ rs, shared)
    ∧ (inv.external_call_result callId t).vm.callResults
        = inv.vm.callResults ++ [(callId, t)]
    ∧ (inv.external_question_result callId answer).vm.questionResults
        = inv.vm.questionResults ++ [(callId, answer)] := by
  refine ⟨?_, rfl, rfl⟩
  induction rs generalizing results with
  | nil => simp [runLoop]
  | cons b rs ih => simp [runLoop, ih]

/-- Witness for C9: after one drained result, an external event with id 3
passes through unchanged. -/
theorem inverter_passes_events_through_witness :
    runLoop (fun _ => .unbound)
      ([[(⟨"x"⟩, Term.number 0 1)]].map SubEvent.result ++ SubEvent.other 3 :: [])
      [] []
      = some (.other 3, [], [[(⟨"x"⟩, Term.number 0 1)]], []) :=
  (inverter_passes_events_through (fun _ => .unbound) [[(⟨"x"⟩, Term.number 0 1)]] 3
    [] [] [] ⟨⟨[], [], []⟩, fun _ => .unbound, [], []⟩ 0 none false).1

/-! ## C2 and C5: per-binding inversion -/

theorem invert_partials_mem_partialState
    (stateAt : Symbol → VariableState) (var : Symbol) (value : Term) (e : Operation)
    (hst : stateAt var = .partialE e) :
    ∀ (bs out : BindingStack),
    invert_partials stateAt bs = some out → (var, value) ∈ bs →
    (var, (PartialInverter.mk var (.partialE e)).fold_term value) ∈ out
  | [], _, _, hmem => by simp at hmem
  | (v', t') :: rest, out, hrun, hmem => by
      rcases List.mem_cons.mp hmem with hhead | htail
      · obtain ⟨rfl, rfl⟩ := Prod.mk.injEq .. ▸ hhead
        rw [invert_partials, hst] at hrun
        obtain ⟨tl, _, rfl⟩ := Option.map_eq_some'.mp hrun
        exact List.mem_cons_self _ _
      · rw [invert_partials] at hrun
        match h : stateAt v' with
        | .unbound =>
            rw [h] at hrun
            obtain ⟨tl, htl, rfl⟩ := Option.map_eq_some'.mp hrun
            exact List.mem_cons_of_mem _
              (invert_partials_mem_partialState stateAt var value e hst rest tl htl htail)
        | .cycle l =>
            rw [h] at hrun
            obtain ⟨tl, htl, rfl⟩ := Option.map_eq_some'.mp hrun
            exact List.mem_cons_of_mem _
              (invert_partials_mem_partialState stateAt var value e hst rest tl htl htail)
        | .bound x =>
            rw [h] at hrun
            have hrun' : (if Term.beq x t' = true then invert_partials stateAt rest
                else none) = some out := hrun
            by_cases hb : Term.beq x t' = true
            · rw [if_pos hb] at hrun'
              exact invert_partials_mem_partialState stateAt var value e hst rest out hrun' htail
            · rw [if_neg hb] at hrun'; exact absurd hrun' (by simp)
        | .partialE e' =>
            rw [h] at hrun
            obtain ⟨tl, htl, rfl⟩ := Option.map_eq_some'.mp hrun
            exact List.mem_cons_of_mem _
              (invert_partials_mem_partialState stateAt var value e hst rest tl htl htail)

theorem invert_partials_mem_unbound
    (stateAt : Symbol → VariableState) (var : Symbol) (value : Term)
    (hst : stateAt var = .unbound ∨ ∃ l, stateAt var = .cycle l) :
    ∀ (bs out : BindingStack),
    invert_partials stateAt bs = some out → (var, value) ∈ bs →
    (var, (PartialInverter.mk var .unbound).fold_term value) ∈ out
  | [], _, _, hmem => by simp at hmem
  | (v', t') :: rest, out, hrun, hmem => by
      rcases List.mem_cons.mp hmem with hhead | htail
      · obtain ⟨rfl, rfl⟩ := Prod.mk.injEq .. ▸ hhead
        rcases hst with hst | ⟨l, hst⟩ <;>
        · rw [invert_partials, hst] at hrun
          obtain ⟨tl, _, rfl⟩ := Option.map_eq_some'.mp hrun
          exact List.mem_cons_self _ _
      · rw [invert_partials] at hrun
        match h : stateAt v' with
        | .unbound =>
            rw [h] at hrun
            obtain ⟨tl, htl, rfl⟩ := Option.map_eq_some'.mp hrun
            exact List.mem_cons_of_mem _
              (invert_partials_mem_unbound stateAt var value hst rest tl htl htail)
        | .cycle l =>
            rw [h] at hrun
            obtain ⟨tl, htl, rfl⟩ := Option.map_eq_some'.mp hrun
            exact List.mem_cons_of_mem _
              (invert_partials_mem_unbound stateAt var value hst rest tl htl htail)
        | .bound x =>
            rw [h] at hrun
            have hrun' : (if Term.beq x t' = true then invert_partials stateAt rest
                else none) = some out := hrun
            by_cases hb : Term.beq x t' = true
            · rw [if_pos hb] at hrun'
              exact invert_partials_mem_unbound stateAt var value hst rest out hrun' htail
            · rw [if_neg hb] at hrun'; exact absurd hrun' (by simp)
        | .partialE e' =>
            rw [h] at hrun
            obtain ⟨tl, htl, rfl⟩ := Option.map_eq_some'.mp hrun
            exact List.mem_cons_of_mem _
              (invert_partials_mem_unbound stateAt var value hst rest tl htl htail)

theorem fold_term_not_expression (pi : PartialInverter) (value : Term)
    (hne : value.isExpression = false) :
    pi.fold_term value
      = Term.expression value.offset .and
          [Term.expression 0 .neq [Term.variable 0 pi.this_var, pi.fold_value value]] := by
  cases value <;> simp_all [Term.isExpression, PartialInverter.fold_term, Term.ofOperation]

theorem fold_list_eq_map (pi : PartialInverter) :
    ∀ es : List Term, pi.fold_list es = es.map pi.fold_term
  | [] => by simp [PartialInverter.fold_list]
  | t :: ts => by simp [PartialInverter.fold_list, fold_list_eq_map pi ts]

theorem inverted_constraints_eq (o : Operation) (csp : Nat) :
    o.inverted_constraints csp =
      if o.args.length ≤ csp then o.args.take csp
      else o.args.take csp ++
        [Term.ofOperation 0 ⟨.not, [Term.ofOperation 0 ⟨.and, o.args.drop csp⟩]⟩] := by
  simp [Operation.inverted_constraints, Operation.constraints, List.isEmpty_iff]

theorem inverted_constraints_take (o : Operation) (csp : Nat) :
    (o.inverted_constraints csp).take csp = o.args.take csp := by
  rw [inverted_constraints_eq]
  by_cases hd : o.args.length ≤ csp
  · rw [if_pos hd, List.take_take]
    simp
  · rw [if_neg hd]
    rw [List.take_left' (by rw [List.length_take]; omega)]

theorem inverted_constraints_nothing_gained (o : Operation) (csp : Nat)
    (hd : o.args.drop csp = []) : o.inverted_constraints csp = o.args := by
  have hlen := List.drop_eq_nil_iff.mp hd
  rw [inverted_constraints_eq, if_pos hlen]
  exact List.take_of_length_le hlen

theorem inverted_constraints_gained (o : Operation) (csp : Nat)
    (hd : o.args.drop csp ≠ []) :
    o.inverted_constraints csp
      = o.args.take csp ++
          [Term.ofOperation 0 ⟨.not, [Term.ofOperation 0 ⟨.and, o.args.drop csp⟩]⟩] := by
  have hlen : ¬o.args.length ≤ csp := fun h => hd (List.drop_eq_nil_iff.mpr h)
  rw [inverted_constraints_eq, if_neg hlen]

/-- C2: a variable that is already Partial at the inverter's entry
pointer, re-bound by the sub-query to a constraint expression, is
inverted keeping its pre-existing constraint prefix — the first `csp`
constraints, `csp` being its constraint count at entry — verbatim, and
only the constraints gained during the negated sub-query are inverted. -/
theorem inverter_keeps_preexisting_constraints
    (stateAt : Symbol → VariableState) (bs out : BindingStack)
    (var : Symbol) (off : Nat) (op : Operator) (args : List Term) (e : Operation)
    (hrun : invert_partials stateAt bs = some out)
    (hmem : (var, Term.expression off op args) ∈ bs)
    (hst : stateAt var = .partialE e) :
    ((var, Term.expression off op
        (Operation.inverted_constraints ⟨op, args⟩ e.constraints.length)) ∈ out)
    ∧ (Operation.inverted_constraints ⟨op, args⟩ e.constraints.length).take
        e.constraints.length = args.take e.constraints.length
    ∧ (args.drop e.constraints.length ≠ [] →
        Operation.inverted_constraints ⟨op, args⟩ e.constraints.length
          = args.take e.constraints.length ++
              [Term.ofOperation 0 ⟨.not,
                [Term.ofOperation 0 ⟨.and, args.drop e.constraints.length⟩]⟩])
    ∧ (args.drop e.constraints.length = [] →
        Operation.inverted_constraints ⟨op, args⟩ e.constraints.length = args) := by
  refine ⟨?_, inverted_constraints_take ⟨op, args⟩ e.constraints.length,
    fun hd => inverted_constraints_gained ⟨op, args⟩ e.constraints.length hd,
    fun hd => inverted_constraints_nothing_gained ⟨op, args⟩ e.constraints.length hd⟩
  have h := invert_partials_mem_partialState stateAt var (Term.expression off op args) e hst
    bs out hrun hmem
  simpa [PartialInverter.fold_term, PartialInverter.invert_operation,
    Operation.clone_with_constraints, Term.ofOperation] using h

/-- Witness for C2: `x` enters as a Partial with one constraint `x > 1`
and gains the constraint `x < 0` during the sub-query. -/
theorem inverter_keeps_preexisting_constraints_witness :
    (invert_partials
        (fun _ => .partialE ⟨.and, [Term.expression 0 .gt
          [Term.variable 0 ⟨"x"⟩, Term.number 0 1]]⟩)
        [(⟨"x"⟩, Term.expression 9 .and
          [Term.expression 0 .gt [Term.variable 0 ⟨"x"⟩, Term.number 0 1],
           Term.expression 0 .lt [Term.variable 0 ⟨"x"⟩, Term.number 0 0]])]
      = some [(⟨"x"⟩,
          (PartialInverter.mk ⟨"x"⟩ (.partialE ⟨.and, [Term.expression 0 .gt
            [Term.variable 0 ⟨"x"⟩, Term.number 0 1]]⟩)).fold_term
            (Term.expression 9 .and
              [Term.expression 0 .gt [Term.variable 0 ⟨"x"⟩, Term.number 0 1],
               Term.expression 0 .lt [Term.variable 0 ⟨"x"⟩, Term.number 0 0]]))])
    ∧ (Operation.inverted_constraints
        ⟨.and, [Term.expression 0 .gt [Term.variable 0 ⟨"x"⟩, Term.number 0 1],
                Term.expression 0 .lt [Term.variable 0 ⟨"x"⟩, Term.number 0 0]]⟩
        1).take 1
      = [Term.expression 0 .gt [Term.variable 0 ⟨"x"⟩, Term.number 0 1]] := by
  have hrun : invert_partials
      (fun _ => .partialE ⟨.and, [Term.expression 0 .gt
        [Term.variable 0 ⟨"x"⟩, Term.number 0 1]]⟩)
      [(⟨"x"⟩, Term.expression 9 .and
        [Term.expression 0 .gt [Term.variable 0 ⟨"x"⟩, Term.number 0 1],
         Term.expression 0 .lt [Term.variable 0 ⟨"x"⟩, Term.number 0 0]])]
    = some [(⟨"x"⟩,
        (PartialInverter.mk ⟨"x"⟩ (.partialE ⟨.and, [Term.expression 0 .gt
          [Term.variable 0 ⟨"x"⟩, Term.number 0 1]]⟩)).fold_term
          (Term.expression 9 .and
            [Term.expression 0 .gt [Term.variable 0 ⟨"x"⟩, Term.number 0 1],
             Term.expression 0 .lt [Term.variable 0 ⟨"x"⟩, Term.number 0 0]]))] := by
    simp [invert_partials]
  refine ⟨hrun, ?_⟩
  have h := (inverter_keeps_preexisting_constraints
    (fun _ => .partialE (Operation.mk .and [Term.expression 0 .gt
      [Term.variable 0 ⟨"x"⟩, Term.number 0 1]]))
    [(⟨"x"⟩, Term.expression 9 .and
      [Term.expression 0 .gt [Term.variable 0 ⟨"x"⟩, Term.number 0 1],
       Term.expression 0 .lt [Term.variable 0 ⟨"x"⟩, Term.number 0 0]])]
    [(⟨"x"⟩,
      (PartialInverter.mk ⟨"x"⟩ (.partialE (Operation.mk .and [Term.expression 0 .gt
        [Term.variable 0 ⟨"x"⟩, Term.number 0 1]]))).fold_term
        (Term.expression 9 .and
          [Term.expression 0 .gt [Term.variable 0 ⟨"x"⟩, Term.number 0 1],
           Term.expression 0 .lt [Term.variable 0 ⟨"x"⟩, Term.number 0 0]]))]
    ⟨"x"⟩ 9 .and
    [Term.expression 0 .gt [Term.variable 0 ⟨"x"⟩, Term.number 0 1],
     Term.expression 0 .lt [Term.variable 0 ⟨"x"⟩, Term.number 0 0]]
    (Operation.mk .and [Term.expression 0 .gt [Term.variable 0 ⟨"x"⟩, Term.number 0 1]])
    hrun (List.mem_singleton.mpr rfl) rfl).2.1
  simpa [Operation.constraints] using h

/-- C5: a variable Unbound or in a Cycle at the inverter's entry pointer,
bound by the sub-query to a concrete (non-expression) value, is inverted
into the negated-equality constraint `And [this != value]` with the
inversion folded through the value's subterms; the Cycle state is
treated exactly as Unbound. -/
theorem inverter_negates_concrete_bindings
    (stateAt : Symbol → VariableState) (bs out : BindingStack)
    (var : Symbol) (value : Term) (l : List Symbol)
    (hrun : invert_partials stateAt bs = some out)
    (hmem : (var, value) ∈ bs)
    (hst : stateAt var = .unbound ∨ stateAt var = .cycle l)
    (hne : value.isExpression = false) :
    ((var, Term.expression value.offset .and
        [Term.expression 0 .neq [Term.variable 0 var,
          (PartialInverter.mk var .unbound).fold_value value]]) ∈ out)
    ∧ (∀ (stateAt2 : Symbol → VariableState) (out2 : BindingStack),
        stateAt2 var = .unbound → invert_partials stateAt2 bs = some out2 →
        (var, Term.expression value.offset .and
          [Term.expression 0 .neq [Term.variable 0 var,
            (PartialInverter.mk var .unbound).fold_value value]]) ∈ out2)
    ∧ (∀ (off : Nat) (es : List Term),
        (PartialInverter.mk var .unbound).fold_value (Term.list off es)
          = Term.list 0 (es.map (PartialInverter.mk var .unbound).fold_term)) := by
  have hshape := fold_term_not_expression (PartialInverter.mk var .unbound) value hne
  refine ⟨?_, ?_, ?_⟩
  · have h := invert_partials_mem_unbound stateAt var value
      (hst.imp id (fun h => ⟨l, h⟩)) bs out hrun hmem
    rwa [hshape] at h
  · intro stateAt2 out2 hst2 hrun2
    have h := invert_partials_mem_unbound stateAt2 var value (Or.inl hst2) bs out2
      hrun2 hmem
    rwa [hshape] at h
  · intro off es
    simp [PartialInverter.fold_value, fold_list_eq_map]

/-- Witness for C5: `x` is in a cycle with `y` at entry and gets bound to
the list `[7]`; the inversion wraps it in `And [x != [7']]` with the fold
applied to the element. -/
theorem inverter_negates_concrete_bindings_witness :
    ((fun _ : Symbol => VariableState.cycle [Symbol.mk "y"]) (Symbol.mk "x")
        = VariableState.unbound
      ∨ (fun _ : Symbol => VariableState.cycle [Symbol.mk "y"]) (Symbol.mk "x")
        = VariableState.cycle [Symbol.mk "y"])
    ∧ ((Symbol.mk "x", Term.expression 3 .and
        [Term.expression 0 .neq [Term.variable 0 (Symbol.mk "x"),
          (PartialInverter.mk (Symbol.mk "x") .unbound).fold_value
            (Term.list 3 [Term.number 0 7])]])
      ∈ [(Symbol.mk "x", (PartialInverter.mk (Symbol.mk "x") .unbound).fold_term
          (Term.list 3 [Term.number 0 7]))]) := by
  have hrun : invert_partials (fun _ : Symbol => VariableState.cycle [Symbol.mk "y"])
      [(Symbol.mk "x", Term.list 3 [Term.number 0 7])]
    = some [(Symbol.mk "x", (PartialInverter.mk (Symbol.mk "x") .unbound).fold_term
        (Term.list 3 [Term.number 0 7]))] := by
    simp [invert_partials]
  exact ⟨Or.inr rfl,
    ((inverter_negates_concrete_bindings
      (fun _ : Symbol => VariableState.cycle [Symbol.mk "y"])
      [(Symbol.mk "x", Term.list 3 [Term.number 0 7])]
      [(Symbol.mk "x", (PartialInverter.mk (Symbol.mk "x") .unbound).fold_term
        (Term.list 3 [Term.number 0 7]))]
      (Symbol.mk "x") (Term.list 3 [Term.number 0 7])
      [Symbol.mk "y"] hrun (List.mem_singleton.mpr rfl) (Or.inr rfl) rfl).1)⟩

/-! ## Roles worked example (C6, C7, C8)

The roles compiler and validator are not part of the excerpt — only their
tests are (test_polar_roles.rs). The declarations below embed the test's
policy data; the compiler/validator semantics are modelled from the
spec's §4.5 description. -/

/-- test_polar_roles.rs `Org`. -/
structure Org where
  name : String
deriving DecidableEq, Repr

/-- test_polar_roles.rs `Repo`. -/
structure Repo where
  name : String
  org : Org
deriving DecidableEq, Repr

/-- test_polar_roles.rs `Issue`. -/
structure Issue where
  name : String
  repo : Repo
deriving DecidableEq, Repr

/-- The three declared resource types of the worked policy. -/
inductive Resource where
  | org (o : Org)
  | repo (r : Repo)
  | issue (i : Issue)
deriving DecidableEq, Repr

/-- The resource namespace under which each type is declared
(`resource(_: Org, "org", ...)` etc.). -/
def Resource.resType : Resource → String
  | .org _ => "org"
  | .repo _ => "repo"
  | .issue _ => "issue"

/-- The policy's `parent_child` rules: `parent_child(parent_org: Org,
repo: Repo) if repo.org = parent_org;` and `parent_child(parent_repo:
Repo, issue: Issue) if issue.repo = parent_repo;`. -/
def parent_child : Resource → Resource → Bool
  | .org p, .repo r => r.org == p
  | .repo p, .issue i => i.repo == p
  | _, _ => false

/-- The ancestor chain of a resource along `parent_child`, nearest
first. -/
def Resource.ancestors : Resource → List Resource
  | .org o => [.org o]
  | .repo r => [.repo r, .org r.org]
  | .issue i => [.issue i, .repo i.repo, .org i.repo.org]

/-- The unique ancestor of a resource declared under a namespace. -/
def Resource.ancestorAt (t : Resource) (ns : String) : Option Resource :=
  t.ancestors.find? (fun a => a.resType == ns)

/-- A role reference: resource namespace and role name. -/
abbrev RoleRef := String × String

/-- The worked policy's role permissions (test_polar_roles.rs policy
text): each permission as a (namespace, action) pair — a bare action
belongs to the role's own namespace, `"issue:edit"` is the cross-resource
permission. -/
def rolePermissions : RoleRef → List (String × String)
  | ("org", "member") => [("org", "create_repo")]
  | ("org", "owner") => [("org", "invite")]
  | ("repo", "writer") => [("repo", "push"), ("issue", "edit")]
  | ("repo", "reader") => [("repo", "pull")]
  | _ => []

/-- The worked policy's `implies` lists (test_polar_roles.rs policy
text). -/
def roleImplies : RoleRef → List RoleRef
  | ("org", "member") => [("repo", "reader")]
  | ("org", "owner") => [("org", "member"), ("repo", "writer")]
  | ("repo", "writer") => [("repo", "reader")]
  | _ => []

/-- Modelled from the spec (the roles compiler is not part of the
excerpt): the transitive expansion of a role's `implies` list, with
enough fuel for the declared hierarchy. -/
def roleClosure : Nat → RoleRef → List RoleRef
  | 0, r => [r]
  | n + 1, r => r :: ((roleImplies r).map (roleClosure n)).flatten

/-- test_polar_roles.rs `Role`: a role name held on a resource. -/
structure RoleAssignment where
  roleName : String
  resource : Resource
deriving DecidableEq, Repr

/-- test_polar_roles.rs `User`: a named actor with role assignments
(`actor_has_role_for_resource` reads `actor.roles`). -/
structure User where
  name : String
  roles : List RoleAssignment
deriving DecidableEq, Repr

/-- Modelled from the spec (the roles compiler is not part of the
excerpt): the derived `role_allows(actor, action, resource)` predicate —
the actor holds a role assignment whose transitive implication closure
contains a role carrying a permission for the action at the target's
namespace, where the implied role applies at the target's ancestor of
the role's namespace and that ancestor must descend from the assigned
resource along the declared `parent_child` chain. -/
def role_allows (actor : User) (action : String) (t : Resource) : Bool :=
  actor.roles.any fun ra =>
    (roleClosure 4 (ra.resource.resType, ra.roleName)).any fun role =>
      (rolePermissions role).any fun perm =>
        perm.2 == action && perm.1 == t.resType &&
        match t.ancestorAt role.1 with
        | some held => held.ancestorAt ra.resource.resType == some ra.resource
        | none => false

/-- The policy's `allow` rule: `allow(actor, action, resource) if
role_allows(actor, action, resource);`. -/
def allow (actor : User) (action : String) (t : Resource) : Bool :=
  role_allows actor action t

/-- test_polar_roles.rs concrete fixtures. -/
def osohq : Org := ⟨"oso"⟩

def apple : Org := ⟨"apple"⟩

def osoRepo : Repo := ⟨"oso", osohq⟩

def ios : Repo := ⟨"ios", apple⟩

def bug : Issue := ⟨"bug", osoRepo⟩

def laggy : Issue := ⟨"laggy", ios⟩

def gwen : User := ⟨"gwen", [⟨"member", .org osohq⟩]⟩

def dave : User := ⟨"dave", [⟨"owner", .org osohq⟩]⟩

def gabeNoRoles : User := ⟨"gabe", []⟩

def gabeMember : User := ⟨"gabe", [⟨"member", .org osohq⟩]⟩

def gabeOwner : User := ⟨"gabe", [⟨"owner", .org osohq⟩]⟩

/-- C6: the worked role policy's `allow` outcomes — an org "owner"
passes invite, create_repo, push, pull and edit on resources under the
org; a "member" fails invite, push and edit but passes create_repo and
pull; an actor with no role, or with a role on a different org, fails
every check, including against resources under an unrelated org. -/
theorem roles_worked_example :
    allow dave "invite" (.org osohq) = true
    ∧ allow dave "create_repo" (.org osohq) = true
    ∧ allow dave "push" (.repo osoRepo) = true
    ∧ allow dave "pull" (.repo osoRepo) = true
    ∧ allow dave "edit" (.issue bug) = true
    ∧ allow gwen "invite" (.org osohq) = false
    ∧ allow gwen "create_repo" (.org osohq) = true
    ∧ allow gwen "push" (.repo osoRepo) = false
    ∧ allow gwen "pull" (.repo osoRepo) = true
    ∧ allow gwen "edit" (.issue bug) = false
    ∧ allow dave "edit" (.issue laggy) = false
    ∧ allow gwen "edit" (.issue laggy) = false
    ∧ allow gabeNoRoles "edit" (.issue bug) = false
    ∧ allow gabeMember "edit" (.issue bug) = false
    ∧ allow gabeOwner "edit" (.issue bug) = true := by
  decide

/-- A compiled `resource` declaration: type, namespace, declared actions
and declared role names. -/
structure ResourceDecl where
  typ : String
  ns : String
  actions : List String
  roles : List String
deriving DecidableEq, Repr

/-- Modelled from the spec (the roles validator is not part of the
excerpt): on every load or reload the validator runs against the full
proposed declaration set and fails with the RolesValidation error
"Must define actions or roles." if any declared resource has neither
actions nor roles. -/
def validateRoles (decls : List ResourceDecl) : Except String Unit :=
  if decls.all (fun d => !d.actions.isEmpty || !d.roles.isEmpty) then .ok ()
  else .error "Must define actions or roles."

/-- The knowledge-base state visible to queries: the committed
declarations. -/
structure PolarState where
  decls : List ResourceDecl
deriving DecidableEq, Repr

/-- Modelled from the spec ("either commit atomically or return a
RolesValidation ... error", the load path is not part of the excerpt): a
load/reload proposes the union of committed and new declarations,
validates the full proposed set, and either commits it atomically or
returns the error with the committed state untouched. -/
def attemptLoad (st : PolarState) (newDecls : List ResourceDecl) :
    PolarState × Option String :=
  match validateRoles (st.decls ++ newDecls) with
  | .error e => (st, some e)
  | .ok _ => (⟨st.decls ++ newDecls⟩, none)

/-- C7: on every load or reload, a declared resource with neither actions
nor roles — whether already committed or newly proposed — makes the load
fail with exactly the RolesValidation message "Must define actions or
roles.". -/
theorem roles_validation_requires_actions_or_roles
    (st : PolarState) (newDecls : List ResourceDecl) (d : ResourceDecl)
    (hmem : d ∈ st.decls ++ newDecls) (ha : d.actions = []) (hr : d.roles = []) :
    validateRoles (st.decls ++ newDecls) = .error "Must define actions or roles."
    ∧ attemptLoad st newDecls = (st, some "Must define actions or roles.") := by
  have hall : (st.decls ++ newDecls).all
      (fun d => !d.actions.isEmpty || !d.roles.isEmpty) = false := by
    rw [List.all_eq_false]
    exact ⟨d, hmem, by simp [ha, hr]⟩
  constructor
  · simp [validateRoles, hall]
  · simp [attemptLoad, validateRoles, hall]

/-- Witness for C7 at the test's scenario: a valid repo declaration is
committed, then `resource(_: Org, "org", [], {})` is loaded and rejected. -/
theorem roles_validation_witness :
    ((⟨"Org", "org", [], []⟩ : ResourceDecl)
        ∈ (PolarState.mk [⟨"Repo", "repo", ["read"], []⟩]).decls
            ++ [⟨"Org", "org", [], []⟩]
      ∧ (⟨"Org", "org", [], []⟩ : ResourceDecl).actions = []
      ∧ (⟨"Org", "org", [], []⟩ : ResourceDecl).roles = [])
    ∧ attemptLoad (PolarState.mk [⟨"Repo", "repo", ["read"], []⟩])
        [⟨"Org", "org", [], []⟩]
      = (PolarState.mk [⟨"Repo", "repo", ["read"], []⟩],
         some "Must define actions or roles.") :=
  ⟨⟨by simp, rfl, rfl⟩,
    (roles_validation_requires_actions_or_roles
      (PolarState.mk [⟨"Repo", "repo", ["read"], []⟩]) [⟨"Org", "org", [], []⟩]
      ⟨"Org", "org", [], []⟩ (by simp) rfl rfl).2⟩

/-- C8: loads are atomic with respect to roles validation — a failed load
commits nothing, so the state after the failed attempt is the state
before it, and every query over the state returns exactly what it
returned before the attempt. -/
theorem roles_failed_load_is_atomic
    (st st' : PolarState) (newDecls : List ResourceDecl) (e : String)
    (h : attemptLoad st newDecls = (st', some e)) :
    st' = st ∧ ∀ {α : Type} (query : PolarState → α), query st' = query st := by
  have hst : st' = st := by
    unfold attemptLoad at h
    cases hv : validateRoles (st.decls ++ newDecls) with
    | error e' => rw [hv] at h; exact (Prod.mk.injEq .. ▸ h).1.symm
    | ok u => rw [hv] at h; exact absurd (Prod.mk.injEq .. ▸ h).2 (by simp)
  exact ⟨hst, fun query => by rw [hst]⟩

/-- Witness for C8 at the test's revalidation scenario. -/
theorem roles_failed_load_is_atomic_witness :
    attemptLoad (PolarState.mk [⟨"Repo", "repo", ["read"], []⟩])
        [⟨"Org", "org", [], []⟩]
      = (PolarState.mk [⟨"Repo", "repo", ["read"], []⟩],
         some "Must define actions or roles.")
    ∧ PolarState.mk [⟨"Repo", "repo", ["read"], []⟩]
        = PolarState.mk [⟨"Repo", "repo", ["read"], []⟩] :=
  ⟨by decide,
    (roles_failed_load_is_atomic
      (PolarState.mk [⟨"Repo", "repo", ["read"], []⟩])
      (PolarState.mk [⟨"Repo", "repo", ["read"], []⟩])
      [⟨"Org", "org", [], []⟩] "Must define actions or roles." (by decide)).1⟩

/-! ## Singleton checking (C10), warnings.rs -/

/-- warnings.rs `common_misspellings`: suggested corrections for common
type-name misspellings. -/
def common_misspellings (t : String) : Option String :=
  match t with
  | "integer" => some "Integer"
  | "int" => some "Integer"
  | "i32" => some "Integer"
  | "i64" => some "Integer"
  | "u32" => some "Integer"
  | "u64" => some "Integer"
  | "usize" => some "Integer"
  | "size_t" => some "Integer"
  | "float" => some "Float"
  | "f32" => some "Float"
  | "f64" => some "Float"
  | "double" => some "Float"
  | "char" => some "String"
  | "str" => some "String"
  | "string" => some "String"
  | "list" => some "List"
  | "array" => some "List"
  | "Array" => some "List"
  | "dict" => some "Dictionary"
  | "Dict" => some "Dictionary"
  | "dictionary" => some "Dictionary"
  | "hash" => some "Dictionary"
  | "Hash" => some "Dictionary"
  | "map" => some "Dictionary"
  | "Map" => some "Dictionary"
  | "HashMap" => some "Dictionary"
  | "hashmap" => some "Dictionary"
  | "hash_map" => some "Dictionary"
  | _ => none

/-- Is this term a `Value::Pattern`? -/
def Term.isPattern : Term → Bool
  | .patternInst _ _ _ => true
  | _ => false

/-- The symbol predicates the visitor consults
(`Symbol::is_temporary_var`, `Symbol::is_namespaced_var`,
`KnowledgeBase::is_constant`); their definitions are not part of the
excerpt, so they are parameters of the embedding. -/
structure SingletonFilters where
  isTemporaryVar : Symbol → Bool
  isNamespacedVar : Symbol → Bool
  isConstant : Symbol → Bool

mutual
/-- warnings.rs `SingletonVisitor::visit_term` together with visitor.rs
`walk_term` (not part of the excerpt, modelled as the pre-order walk of
all subterms): emit a hit for a variable, rest-variable or instance
pattern tag that is not temporary, not namespaced and not a constant,
then walk the subterms. -/
def occurrencesT (f : SingletonFilters) : Term → List (Symbol × Term)
  | .number _ _ => []
  | .str _ _ => []
  | .boolean _ _ => []
  | .variable off v =>
      if !f.isTemporaryVar v && !f.isNamespacedVar v && !f.isConstant v
      then [(v, .variable off v)] else []
  | .restVariable off v =>
      if !f.isTemporaryVar v && !f.isNamespacedVar v && !f.isConstant v
      then [(v, .restVariable off v)] else []
  | .patternInst off v fields =>
      (if !f.isTemporaryVar v && !f.isNamespacedVar v && !f.isConstant v
       then [(v, .patternInst off v fields)] else []) ++ occurrencesL f fields
  | .call _ _ args => occurrencesL f args
  | .expression _ _ args => occurrencesL f args
  | .list _ es => occurrencesL f es
  | .dict _ es => occurrencesL f es
  | .externalInstance _ _ => []

/-- The walk over a list of subterms. -/
def occurrencesL (f : SingletonFilters) : List Term → List (Symbol × Term)
  | [] => []
  | t :: ts => occurrencesT f t ++ occurrencesL f ts
end

/-- rules.rs `Parameter` (not part of the excerpt): a parameter term with
an optional specializer. -/
structure Parameter where
  parameter : Term
  specializer : Option Term

/-- rules.rs `Rule` (not part of the excerpt): name, parameters, body. -/
structure Rule where
  name : Symbol
  params : List Parameter
  body : Term

/-- visitor.rs `walk_rule` over one parameter: the parameter term, then
its specializer. -/
def occurrencesParam (f : SingletonFilters) (p : Parameter) : List (Symbol × Term) :=
  occurrencesT f p.parameter ++
    (match p.specializer with
     | some s => occurrencesT f s
     | none => [])

/-- visitor.rs `walk_rule` (not part of the excerpt): parameters in
order, then the body. -/
def occurrencesRule (f : SingletonFilters) (r : Rule) : List (Symbol × Term) :=
  (r.params.map (occurrencesParam f)).flatten ++ occurrencesT f r.body

/-- Lookup in the visitor's singleton map, embedded as an association
list in insertion order. -/
def lookupOpt : List (Symbol × Option Term) → Symbol → Option (Option Term)
  | [], _ => none
  | (v, x) :: rest, s => if v = s then some x else lookupOpt rest s

/-- Overwrite an occupied entry with `None` (`o.insert(None)`). -/
def setNone : List (Symbol × Option Term) → Symbol → List (Symbol × Option Term)
  | [], _ => []
  | (v, x) :: rest, s =>
      if v = s then (v, none) :: rest else (v, x) :: setNone rest s

/-- warnings.rs `SingletonVisitor::visit_term` bookkeeping over the
pre-order occurrence list: the first occurrence of a symbol records its
term (`Vacant → insert(Some(t))`), any later occurrence overwrites the
entry with `None` (`Occupied → insert(None)`). -/
def tally (acc : List (Symbol × Option Term)) :
    List (Symbol × Term) → List (Symbol × Option Term)
  | [] => acc
  | (v, t) :: rest =>
      match lookupOpt acc v with
      | some _ => tally (setNone acc v) rest
      | none => tally (acc ++ [(v, some t)]) rest

/-- warnings.rs `SingletonVisitor::warnings`, collection step: the
symbols still mapped to `Some(term)` — the singletons. (The source
drains a HashMap in arbitrary order before sorting; the embedding uses
insertion order, which the subsequent sort makes irrelevant.) -/
def singletonList (f : SingletonFilters) (r : Rule) : List (Symbol × Term) :=
  (tally [] (occurrencesRule f r)).filterMap
    (fun p => p.2.map (fun t => (p.1, t)))

/-- The sort key of `singletons.sort_by_key(|(_, term)| term.offset())`. -/
def offsetLE (a b : Symbol × Term) : Prop :=
  a.2.offset ≤ b.2.offset

instance : DecidableRel offsetLE := fun a b => Nat.decLe a.2.offset b.2.offset

instance : IsTotal (Symbol × Term) offsetLE :=
  ⟨fun a b => Nat.le_total a.2.offset b.2.offset⟩

instance : IsTrans (Symbol × Term) offsetLE :=
  ⟨fun _ _ _ => Nat.le_trans⟩

/-- warnings.rs `SingletonVisitor::warnings`, sorting step: singletons in
ascending source-offset order. -/
def sortedSingletons (f : SingletonFilters) (r : Rule) : List (Symbol × Term) :=
  List.insertionSort offsetLE (singletonList f r)

/-- error.rs `ParseError::SingletonVariable` with its payload. -/
structure SingletonVariableError where
  loc : Nat
  varName : String
deriving DecidableEq, Repr

/-- warnings.rs `warn_str`: a pattern occurrence yields the "Unknown
specializer" warning, with a suggestion when the name is a common type
misspelling; any other occurrence is a SingletonVariable parse error at
the term's offset. (The source appends the offending source line when
the kb has the source text; kb sources are not part of the excerpt, so
the message is modelled without that suffix.) -/
def warn_str (sym : Symbol) (t : Term) : Except SingletonVariableError String :=
  match t with
  | .patternInst _ _ _ =>
      .ok ("Unknown specializer " ++ sym.name ++
        (match common_misspellings sym.name with
         | some m => ", did you mean " ++ m ++ "?"
         | none => ""))
  | _ => .error ⟨t.offset, sym.name⟩

/-- The behavior of `collect::<PolarResult<Vec<_>>>()` over an iterator
of fallible results: collect in order, short-circuiting at the first
error. -/
def collectResults {α β ε : Type} (g : α → Except ε β) : List α → Except ε (List β)
  | [] => .ok []
  | a :: l =>
    match g a with
    | .error e => .error e
    | .ok b =>
      match collectResults g l with
      | .error e => .error e
      | .ok bs => .ok (b :: bs)

/-- warnings.rs `check_singletons`: walk the rule, keep the singletons,
sort them by source offset and map `warn_str` over them, short-circuiting
at the first singleton that is not a pattern
(`collect::<PolarResult<Vec<String>>>()`). -/
def check_singletons (f : SingletonFilters) (r : Rule) :
    Except SingletonVariableError (List String) :=
  collectResults (fun p => warn_str p.1 p.2) (sortedSingletons f r)

theorem hit_mem {f : SingletonFilters} {v : Symbol} {X : Term} {s : Symbol} {u : Term}
    (hm : (s, u) ∈ (if !f.isTemporaryVar v && !f.isNamespacedVar v && !f.isConstant v
      then [(v, X)] else [])) :
    f.isTemporaryVar s = false ∧ f.isNamespacedVar s = false ∧ f.isConstant s = false
      ∧ s = v ∧ u = X := by
  split at hm
  case isTrue hc =>
    simp only [List.mem_singleton] at hm
    obtain ⟨rfl, rfl⟩ := Prod.mk.injEq .. ▸ hm
    simp only [Bool.and_eq_true, Bool.not_eq_true'] at hc
    exact ⟨hc.1.1, hc.1.2, hc.2, rfl, rfl⟩
  case isFalse => simp at hm

mutual
theorem occurrencesT_sound (f : SingletonFilters) :
    ∀ (t : Term) (s : Symbol) (u : Term), (s, u) ∈ occurrencesT f t →
      f.isTemporaryVar s = false ∧ f.isNamespacedVar s = false ∧ f.isConstant s = false ∧
      ((∃ off, u = Term.variable off s) ∨ (∃ off, u = Term.restVariable off s) ∨
        (∃ off fields, u = Term.patternInst off s fields))
  | .number _ _, s, u => by intro hm; simp [occurrencesT] at hm
  | .str _ _, s, u => by intro hm; simp [occurrencesT] at hm
  | .boolean _ _, s, u => by intro hm; simp [occurrencesT] at hm
  | .externalInstance _ _, s, u => by intro hm; simp [occurrencesT] at hm
  | .variable off v, s, u => by
      intro hm
      rw [occurrencesT] at hm
      obtain ⟨h1, h2, h3, rfl, rfl⟩ := hit_mem hm
      exact ⟨h1, h2, h3, Or.inl ⟨off, rfl⟩⟩
  | .restVariable off v, s, u => by
      intro hm
      rw [occurrencesT] at hm
      obtain ⟨h1, h2, h3, rfl, rfl⟩ := hit_mem hm
      exact ⟨h1, h2, h3, Or.inr (Or.inl ⟨off, rfl⟩)⟩
  | .patternInst off v fields, s, u => by
      intro hm
      rw [occurrencesT] at hm
      rcases List.mem_append.mp hm with hh | ht
      · obtain ⟨h1, h2, h3, rfl, rfl⟩ := hit_mem hh
        exact ⟨h1, h2, h3, Or.inr (Or.inr ⟨off, fields, rfl⟩)⟩
      · exact occurrencesL_sound f fields s u ht
  | .call _ _ args, s, u => by
      intro hm
      rw [occurrencesT] at hm
      exact occurrencesL_sound f args s u hm
  | .expression _ _ args, s, u => by
      intro hm
      rw [occurrencesT] at hm
      exact occurrencesL_sound f args s u hm
  | .list _ es, s, u => by
      intro hm
      rw [occurrencesT] at hm
      exact occurrencesL_sound f es s u hm
  | .dict _ es, s, u => by
      intro hm
      rw [occurrencesT] at hm
      exact occurrencesL_sound f es s u hm

theorem occurrencesL_sound (f : SingletonFilters) :
    ∀ (ts : List Term) (s : Symbol) (u : Term), (s, u) ∈ occurrencesL f ts →
      f.isTemporaryVar s = false ∧ f.isNamespacedVar s = false ∧ f.isConstant s = false ∧
      ((∃ off, u = Term.variable off s) ∨ (∃ off, u = Term.restVariable off s) ∨
        (∃ off fields, u = Term.patternInst off s fields))
  | [], s, u => by intro hm; simp [occurrencesL] at hm
  | t :: ts, s, u => by
      intro hm
      rw [occurrencesL] at hm
      rcases List.mem_append.mp hm with hh | ht
      · exact occurrencesT_sound f t s u hh
      · exact occurrencesL_sound f ts s u ht
end

theorem occurrencesRule_sound (f : SingletonFilters) (r : Rule) (s : Symbol) (u : Term)
    (hm : (s, u) ∈ occurrencesRule f r) :
    f.isTemporaryVar s = false ∧ f.isNamespacedVar s = false ∧ f.isConstant s = false ∧
    ((∃ off, u = Term.variable off s) ∨ (∃ off, u = Term.restVariable off s) ∨
      (∃ off fields, u = Term.patternInst off s fields)) := by
  rw [occurrencesRule] at hm
  rcases List.mem_append.mp hm with hh | ht
  · obtain ⟨l, hl, hmem⟩ := List.mem_flatten.mp hh
    obtain ⟨p, _, rfl⟩ := List.mem_map.mp hl
    rw [occurrencesParam] at hmem
    rcases List.mem_append.mp hmem with hp | hs
    · exact occurrencesT_sound f p.parameter s u hp
    · match hspec : p.specializer with
      | some sp => rw [hspec] at hs; exact occurrencesT_sound f sp s u hs
      | none => rw [hspec] at hs; simp at hs
  · exact occurrencesT_sound f r.body s u ht

theorem lookupOpt_setNone (v s : Symbol) :
    ∀ acc, lookupOpt (setNone acc v) s =
      if v = s then (lookupOpt acc s).map (fun _ => none) else lookupOpt acc s
  | [] => by by_cases h : v = s <;> simp [setNone, lookupOpt, h]
  | (w, x) :: rest => by
      by_cases hwv : w = v
      · subst hwv
        by_cases hws : w = s
        · subst hws
          simp [setNone, lookupOpt]
        · simp [setNone, lookupOpt, hws, fun h : w = s => hws h]
      · by_cases hws : w = s
        · subst hws
          simp [setNone, lookupOpt, hwv]
          rw [if_neg (fun h : v = w => hwv h.symm)]
        · simp [setNone, lookupOpt, hwv, hws, lookupOpt_setNone v s rest]

theorem lookupOpt_append (v : Symbol) (x : Option Term) (s : Symbol) :
    ∀ acc, lookupOpt (acc ++ [(v, x)]) s =
      match lookupOpt acc s with
      | some y => some y
      | none => if v = s then some x else none
  | [] => by simp [lookupOpt]
  | (w, y) :: rest => by
      by_cases hws : w = s
      · simp [lookupOpt, hws]
      · simp [lookupOpt, hws, lookupOpt_append v x s rest]

theorem tally_lookup (s : Symbol) :
    ∀ (occ : List (Symbol × Term)) (acc : List (Symbol × Option Term)),
    lookupOpt (tally acc occ) s =
      match lookupOpt acc s, occ.filter (fun p => p.1 == s) with
      | none, [] => none
      | none, [p] => some (some p.2)
      | none, _ :: _ :: _ => some none
      | some x, [] => some x
      | some _, _ :: _ => some none
  | [], acc => by
      cases h : lookupOpt acc s <;> simp [tally, h]
  | (v, t) :: rest, acc => by
      rw [tally]
      by_cases hvs : v = s
      · subst hvs
        cases hv : lookupOpt acc v with
        | some x =>
            simp only [hv]
            have ih := tally_lookup v rest (setNone acc v)
            rw [ih, lookupOpt_setNone, if_pos rfl, hv]
            cases hf : rest.filter (fun p => p.1 == v) <;>
              simp [List.filter_cons, hf]
        | none =>
            simp only [hv]
            have ih := tally_lookup v rest (acc ++ [(v, some t)])
            rw [ih, lookupOpt_append, hv]
            cases hf : rest.filter (fun p => p.1 == v) <;>
              simp [List.filter_cons, hf]
      · have hfilter : ((v, t) :: rest).filter (fun p => p.1 == s)
            = rest.filter (fun p => p.1 == s) := by
          simp [List.filter_cons, hvs]
        rw [hfilter]
        cases hv : lookupOpt acc v with
        | some x =>
            simp only [hv]
            have ih := tally_lookup s rest (setNone acc v)
            rw [ih, lookupOpt_setNone, if_neg hvs]
        | none =>
            simp only [hv]
            have ih := tally_lookup s rest (acc ++ [(v, some t)])
            rw [ih, lookupOpt_append]
            cases hs : lookupOpt acc s with
            | some y => rfl
            | none => rw [if_neg hvs]

theorem keys_setNone (v : Symbol) :
    ∀ acc, (setNone acc v).map Prod.fst = acc.map Prod.fst
  | [] => rfl
  | (w, x) :: rest => by
      by_cases h : w = v <;> simp [setNone, h, keys_setNone v rest]

theorem lookupOpt_eq_none_iff (s : Symbol) :
    ∀ acc, lookupOpt acc s = none ↔ s ∉ acc.map Prod.fst
  | [] => by simp [lookupOpt]
  | (w, x) :: rest => by
      by_cases h : w = s
      · subst h
        simp [lookupOpt]
      · simp only [lookupOpt, if_neg h, List.map_cons, List.mem_cons]
        rw [lookupOpt_eq_none_iff s rest]
        constructor
        · intro hn hc
          rcases hc with he | hm
          · exact h he.symm
          · exact hn hm
        · intro hn hm
          exact hn (Or.inr hm)

theorem tally_keys_nodup :
    ∀ (occ : List (Symbol × Term)) (acc : List (Symbol × Option Term)),
    (acc.map Prod.fst).Nodup → ((tally acc occ).map Prod.fst).Nodup
  | [], acc, h => by simpa [tally] using h
  | (v, t) :: rest, acc, h => by
      rw [tally]
      cases hv : lookupOpt acc v with
      | some x =>
          simp only [hv]
          exact tally_keys_nodup rest _ (by rw [keys_setNone]; exact h)
      | none =>
          simp only [hv]
          apply tally_keys_nodup rest
          have hnotin : v ∉ acc.map Prod.fst := (lookupOpt_eq_none_iff v acc).mp hv
          simp [List.nodup_append, h, hnotin]

theorem mem_iff_lookupOpt :
    ∀ (acc : List (Symbol × Option Term)), (acc.map Prod.fst).Nodup →
    ∀ (s : Symbol) (x : Option Term), (s, x) ∈ acc ↔ lookupOpt acc s = some x
  | [], _, s, x => by simp [lookupOpt]
  | (w, y) :: rest, hnd, s, x => by
      have hnd' : (rest.map Prod.fst).Nodup := (List.nodup_cons.mp (by simpa using hnd)).2
      have hwnotin : w ∉ rest.map Prod.fst := (List.nodup_cons.mp (by simpa using hnd)).1
      by_cases h : w = s
      · subst h
        have hl : lookupOpt ((w, y) :: rest) w = some y := by simp [lookupOpt]
        rw [hl, List.mem_cons]
        constructor
        · rintro (heq | hmem)
          · exact congrArg some ((Prod.mk.injEq .. ▸ heq).2).symm
          · exact absurd (List.mem_map.mpr ⟨(w, x), hmem, rfl⟩) hwnotin
        · intro heq
          obtain rfl : y = x := Option.some.inj heq
          exact Or.inl rfl
      · have hl : lookupOpt ((w, y) :: rest) s = lookupOpt rest s := by
          simp [lookupOpt, h]
        rw [hl, List.mem_cons, ← mem_iff_lookupOpt rest hnd' s x]
        constructor
        · rintro (heq | hmem)
          · exact absurd ((Prod.mk.injEq .. ▸ heq).1.symm) h
          · exact hmem
        · exact Or.inr

theorem mem_singletonList (f : SingletonFilters) (r : Rule) (s : Symbol) (t : Term) :
    (s, t) ∈ singletonList f r ↔
      lookupOpt (tally [] (occurrencesRule f r)) s = some (some t) := by
  rw [singletonList, List.mem_filterMap]
  constructor
  · rintro ⟨⟨v, x⟩, hmem, hg⟩
    cases x with
    | none => simp at hg
    | some u =>
        have huv : v = s ∧ u = t := by simpa using hg
        rcases huv with ⟨rfl, rfl⟩
        exact (mem_iff_lookupOpt _ (tally_keys_nodup _ [] (by simp)) v (some u)).mp hmem
  · intro hl
    refine ⟨(s, some t),
      (mem_iff_lookupOpt _ (tally_keys_nodup _ [] (by simp)) s (some t)).mpr hl, ?_⟩
    simp

theorem mem_sortedSingletons (f : SingletonFilters) (r : Rule) (s : Symbol) (t : Term) :
    (s, t) ∈ sortedSingletons f r ↔ (s, t) ∈ singletonList f r := by
  rw [sortedSingletons]
  exact (List.perm_insertionSort offsetLE (singletonList f r)).mem_iff

theorem filter_key_elem {occ : List (Symbol × Term)} {s : Symbol} {p : Symbol × Term}
    (h : p ∈ occ.filter (fun q => q.1 == s)) : p.1 = s := by
  have := (List.mem_filter.mp h).2
  simpa using this

theorem singletons_iff (f : SingletonFilters) (r : Rule) (s : Symbol) (t : Term) :
    (s, t) ∈ sortedSingletons f r ↔
      (occurrencesRule f r).filter (fun p => p.1 == s) = [(s, t)] := by
  rw [mem_sortedSingletons, mem_singletonList, tally_lookup s (occurrencesRule f r) []]
  simp only [lookupOpt]
  cases hf : (occurrencesRule f r).filter (fun p => p.1 == s) with
  | nil => simp
  | cons p ps =>
      cases ps with
      | nil =>
          have hp1 : p.1 = s := filter_key_elem (hf ▸ List.mem_singleton_self p)
          simp only []
          constructor
          · intro h
            have hpt : p.2 = t := by simpa using h
            rw [← hp1, ← hpt]
          · intro h
            have hp : p = (s, t) := by simpa using h
            rw [hp]
      | cons q qs =>
          simp only []
          constructor
          · intro h
            exact absurd h (by simp)
          · intro h
            simp at h

theorem collectResults_ok_of_all {α β ε : Type} (g : α → Except ε β) (out : α → β) :
    ∀ l : List α, (∀ a ∈ l, g a = .ok (out a)) → collectResults g l = .ok (l.map out)
  | [], _ => rfl
  | a :: l, h => by
      have ha := h a (List.mem_cons_self a l)
      have hl := collectResults_ok_of_all g out l
        (fun b hb => h b (List.mem_cons_of_mem a hb))
      simp [collectResults, ha, hl]

theorem collectResults_error_of_exists {α β ε : Type} (g : α → Except ε β) :
    ∀ l : List α, (∃ a ∈ l, ∃ e, g a = .error e) →
      ∃ a ∈ l, ∃ e, g a = .error e ∧ collectResults g l = .error e
  | [], h => by simp at h
  | a :: l, h => by
      cases hga : g a with
      | error e =>
          exact ⟨a, List.mem_cons_self a l, e, hga, by simp [collectResults, hga]⟩
      | ok b =>
          obtain ⟨a', ha', e', hge⟩ := h
          have ha'l : a' ∈ l := by
            rcases List.mem_cons.mp ha' with rfl | h2
            · rw [hga] at hge
              simp at hge
            · exact h2
          obtain ⟨a'', ha'', e'', hg'', hm⟩ :=
            collectResults_error_of_exists g l ⟨a', ha'l, e', hge⟩
          exact ⟨a'', List.mem_cons_of_mem a ha'', e'', hg'', by
            simp [collectResults, hga, hm]⟩

theorem warn_str_pattern (sym : Symbol) (t : Term) (h : t.isPattern = true) :
    warn_str sym t = .ok ("Unknown specializer " ++ sym.name ++
      (match common_misspellings sym.name with
       | some m => ", did you mean " ++ m ++ "?"
       | none => "")) := by
  cases t <;> simp_all [Term.isPattern, warn_str]

theorem warn_str_not_pattern (sym : Symbol) (t : Term) (h : t.isPattern = false) :
    warn_str sym t = .error ⟨t.offset, sym.name⟩ := by
  cases t <;> simp_all [Term.isPattern, warn_str, Term.offset]

/-- C10: `check_singletons` considers only variables, rest-variables and
pattern tags that are not temporary, not namespaced and not constants; a
symbol is reported iff it has exactly one such occurrence; reported
singletons are processed in ascending source-offset order; a pattern
singleton yields a warning starting "Unknown specializer" (with a
suggestion for common type misspellings), while a plain-variable
singleton makes the whole check return a SingletonVariable parse error
instead; symbols occurring more than once are never reported. -/
theorem check_singletons_spec (f : SingletonFilters) (r : Rule) :
    (∀ s t, (s, t) ∈ occurrencesRule f r →
      f.isTemporaryVar s = false ∧ f.isNamespacedVar s = false ∧ f.isConstant s = false ∧
      ((∃ off, t = Term.variable off s) ∨ (∃ off, t = Term.restVariable off s) ∨
        (∃ off fields, t = Term.patternInst off s fields)))
    ∧ (∀ s t, (s, t) ∈ sortedSingletons f r ↔
        (occurrencesRule f r).filter (fun p => p.1 == s) = [(s, t)])
    ∧ (sortedSingletons f r).Sorted offsetLE
    ∧ (∀ s, 2 ≤ ((occurrencesRule f r).filter (fun p => p.1 == s)).length →
        ∀ t, (s, t) ∉ sortedSingletons f r)
    ∧ ((∀ p ∈ sortedSingletons f r, p.2.isPattern = true) →
        check_singletons f r = .ok ((sortedSingletons f r).map (fun p =>
          "Unknown specializer " ++ p.1.name ++
            (match common_misspellings p.1.name with
             | some m => ", did you mean " ++ m ++ "?"
             | none => ""))))
    ∧ ((∃ p ∈ sortedSingletons f r, p.2.isPattern = false) →
        ∃ s t, (s, t) ∈ sortedSingletons f r ∧ t.isPattern = false ∧
          check_singletons f r = .error ⟨t.offset, s.name⟩) := by
  refine ⟨fun s t hm => occurrencesRule_sound f r s t hm,
    fun s t => singletons_iff f r s t,
    List.sorted_insertionSort offsetLE (singletonList f r),
    ?_, ?_, ?_⟩
  · intro s hlen t hmem
    have hfil := (singletons_iff f r s t).mp hmem
    rw [hfil] at hlen
    simp at hlen
  · intro hpat
    rw [check_singletons]
    exact collectResults_ok_of_all _ _ _
      (fun p hp => warn_str_pattern p.1 p.2 (hpat p hp))
  · rintro ⟨p, hp, hnp⟩
    obtain ⟨a, ha, e, hg, hm⟩ := collectResults_error_of_exists
      (fun p => warn_str p.1 p.2) (sortedSingletons f r)
      ⟨p, hp, ⟨p.2.offset, p.1.name⟩, warn_str_not_pattern p.1 p.2 hnp⟩
    cases hap : a.2.isPattern with
    | true =>
        rw [warn_str_pattern a.1 a.2 hap] at hg
        simp at hg
    | false =>
        rw [warn_str_not_pattern a.1 a.2 hap] at hg
        have he : e = ⟨a.2.offset, a.1.name⟩ := (Except.error.inj hg).symm
        refine ⟨a.1, a.2, ?_, hap, ?_⟩
        · simpa using ha
        · rw [check_singletons, hm, he]

/-- All-false filters: no symbols are temporary, namespaced or constant. -/
def openFilters : SingletonFilters :=
  ⟨fun _ => false, fun _ => false, fun _ => false⟩

/-- A rule `r(x: int) if x = 1;` — `x` occurs twice, the misspelled
specializer tag `int` once. -/
def exampleRule : Rule :=
  ⟨⟨"r"⟩,
   [⟨Term.variable 1 ⟨"x"⟩, some (Term.patternInst 3 ⟨"int"⟩ [])⟩],
   Term.expression 5 .unify [Term.variable 6 ⟨"x"⟩, Term.number 8 1]⟩

/-- Witness for C10: on the example rule the only singleton is the
pattern tag `int`, reported as an "Unknown specializer" warning with the
`Integer` suggestion; the doubly-occurring `x` is not reported. -/
theorem check_singletons_spec_witness :
    (∀ p ∈ sortedSingletons openFilters exampleRule, p.2.isPattern = true)
    ∧ check_singletons openFilters exampleRule
        = .ok ["Unknown specializer int, did you mean Integer?"] := by
  have hpat : ∀ p ∈ sortedSingletons openFilters exampleRule, p.2.isPattern = true := by
    decide
  refine ⟨hpat, ?_⟩
  have h := (check_singletons_spec openFilters exampleRule).2.2.2.2.1 hpat
  rw [h]
  rfl

end Polar
